import Mathlib

/-!
Shallow embedding of the StudyRAG document indexing and retrieval subsystem
(`backend/embedding_service.py`, `backend/rag_pipeline.py`,
`backend/retrieval_service.py`) together with the parts of its direct
dependencies that the code's behaviour rests on (the deterministic fallback
embedding's SHA-256 seeding and CPython's Mersenne-Twister generator, the
FAISS flat nearest-neighbor index, and langchain's recursive character
splitter).  Python floats produced by the modelled code paths are represented
exactly by rationals: every arithmetic step the modelled code performs on them
(53-bit dyadic fractions combined by exact binary64 operations) is exact, so
no rounding is lost in the translation.
-/

/-! ### Bytes and 32-bit words -/

/-- Truncation to a 32-bit word, the mask applied by C `uint32_t` arithmetic. -/
def w32 (n : Nat) : Nat := n % 4294967296

/-- Right rotation of a 32-bit word. -/
def rotr32 (x n : Nat) : Nat := w32 ((x >>> n) ||| (x <<< (32 - n)))

/-- UTF-8 encoding of one scalar value, as `str.encode("utf-8")` produces. -/
def utf8Bytes (c : Char) : List Nat :=
  let n := c.toNat
  if n < 128 then [n]
  else if n < 2048 then [192 + n / 64, 128 + n % 64]
  else if n < 65536 then [224 + n / 4096, 128 + (n / 64) % 64, 128 + n % 64]
  else [240 + n / 262144, 128 + (n / 4096) % 64, 128 + (n / 64) % 64, 128 + n % 64]

/-- UTF-8 encoding of a whole string as a byte list. -/
def utf8Encode (s : String) : List Nat := (s.data.map utf8Bytes).flatten

/-- Big-endian bytes of `v`, `n` bytes wide. -/
def beBytes (n v : Nat) : List Nat :=
  (List.range n).map (fun i => (v >>> (8 * (n - 1 - i))) % 256)

/-- Big-endian 32-bit word from a byte list (most significant byte first). -/
def beWord (bs : List Nat) : Nat := bs.foldl (fun a b => a * 256 + b) 0

/-! ### SHA-256 (`hashlib.sha256`) -/

/-- The SHA-256 round constants (FIPS 180-4), written in decimal. -/
def shaK : List Nat :=
  [1116352408, 1899447441, 3049323471, 3921009573, 961987163,
   1508970993, 2453635748, 2870763221, 3624381080, 310598401,
   607225278, 1426881987, 1925078388, 2162078206, 2614888103,
   3248222580, 3835390401, 4022224774, 264347078, 604807628,
   770255983, 1249150122, 1555081692, 1996064986, 2554220882,
   2821834349, 2952996808, 3210313671, 3336571891, 3584528711,
   113926993, 338241895, 666307205, 773529912, 1294757372,
   1396182291, 1695183700, 1986661051, 2177026350, 2456956037,
   2730485921, 2820302411, 3259730800, 3345764771, 3516065817,
   3600352804, 4094571909, 275423344, 430227734, 506948616,
   659060556, 883997877, 958139571, 1322822218, 1537002063,
   1747873779, 1955562222, 2024104815, 2227730452, 2361852424,
   2428436474, 2756734187, 3204031479, 3329325298]

/-- The SHA-256 initial hash state (FIPS 180-4), written in decimal. -/
def shaH0 : List Nat :=
  [1779033703, 3144134277, 1013904242, 2773480762,
   1359893119, 2600822924, 528734635, 1541459225]

/-- SHA-256 message padding: a `0x80` byte, zeros to 56 mod 64, then the
bit length as 8 big-endian bytes. -/
def shaPad (msg : List Nat) : List Nat :=
  let L := msg.length
  let zeros := (64 + 56 - (L + 1) % 64) % 64
  msg ++ [128] ++ List.replicate zeros 0 ++ beBytes 8 (8 * L)

/-- The padded message cut into 64-byte blocks. -/
def shaBlocks (bs : List Nat) : List (List Nat) :=
  (List.range (bs.length / 64)).map (fun i => ((bs.drop (64 * i)).take 64))

/-- The 16 big-endian words of one 64-byte block. -/
def blockWords (block : List Nat) : List Nat :=
  (List.range 16).map (fun i => beWord ((block.drop (4 * i)).take 4))

/-- SHA-256 small sigma 0. -/
def ssig0 (x : Nat) : Nat := (rotr32 x 7) ^^^ (rotr32 x 18) ^^^ (x >>> 3)

/-- SHA-256 small sigma 1. -/
def ssig1 (x : Nat) : Nat := (rotr32 x 17) ^^^ (rotr32 x 19) ^^^ (x >>> 10)

/-- SHA-256 big sigma 0. -/
def bsig0 (x : Nat) : Nat := (rotr32 x 2) ^^^ (rotr32 x 13) ^^^ (rotr32 x 22)

/-- SHA-256 big sigma 1. -/
def bsig1 (x : Nat) : Nat := (rotr32 x 6) ^^^ (rotr32 x 11) ^^^ (rotr32 x 25)

/-- Message schedule: extend the 16 block words to 64. -/
def shaSchedule (w16 : List Nat) : List Nat :=
  (List.range 48).foldl
    (fun w _ =>
      let i := w.length
      w ++ [w32 (ssig1 (w.getD (i - 2) 0) + w.getD (i - 7) 0 +
                 ssig0 (w.getD (i - 15) 0) + w.getD (i - 16) 0)])
    w16

/-- One SHA-256 round on the state `[a,b,c,d,e,f,g,h]`. -/
def shaRound (st : List Nat) (wt kt : Nat) : List Nat :=
  let a := st.getD 0 0
  let b := st.getD 1 0
  let c := st.getD 2 0
  let d := st.getD 3 0
  let e := st.getD 4 0
  let f := st.getD 5 0
  let g := st.getD 6 0
  let h := st.getD 7 0
  let ch := (e &&& f) ^^^ ((e ^^^ 4294967295) &&& g)
  let maj := (a &&& b) ^^^ (a &&& c) ^^^ (b &&& c)
  let t1 := w32 (h + bsig1 e + ch + kt + wt)
  let t2 := w32 (bsig0 a + maj)
  [w32 (t1 + t2), a, b, c, w32 (d + t1), e, f, g]

/-- Compression of one block into the running hash state. -/
def shaCompress (h block : List Nat) : List Nat :=
  let w := shaSchedule (blockWords block)
  let st := (List.range 64).foldl (fun st t => shaRound st (w.getD t 0) (shaK.getD t 0)) h
  (h.zip st).map (fun p => w32 (p.1 + p.2))

/-- SHA-256 digest of a byte list, as 32 bytes. -/
def sha256 (msg : List Nat) : List Nat :=
  (((shaBlocks (shaPad msg)).foldl shaCompress shaH0).map (beBytes 4)).flatten

/-! ### CPython `random.Random` (Mersenne Twister)

`random.Random(seed)` for an `int` seed splits `abs(seed)` into 32-bit words
(least significant first; `0` gives the single word `0`) and feeds them to
`init_by_array`. -/

/-- Key words of an integer seed, least-significant 32-bit word first.  The
seeds the modelled code produces come from the first 8 digest bytes and are
therefore below `2^64`, for which this closed form agrees with CPython's
word splitting. -/
def seedKey (s : Nat) : List Nat :=
  if s < 4294967296 then [s] else [w32 s, s >>> 32]

/-- `init_genrand`: the auxiliary linear seeding of the 624-word state. -/
def mtInitStates (prev i : Nat) : Nat → List Nat
  | 0 => []
  | n + 1 =>
    let cur := w32 (1812433253 * (prev ^^^ (prev >>> 30)) + i)
    cur :: mtInitStates cur (i + 1) n

/-- `init_genrand(s)` produces the full 624-word state. -/
def mtInitGenrand (s : Nat) : List Nat := w32 s :: mtInitStates (w32 s) 1 623

/-- Index wrap-around used by `init_by_array`: past the end, word 0 is
overwritten with word 623 and the index restarts at 1. -/
def mtWrap (mt : List Nat) (i : Nat) : List Nat × Nat :=
  if 624 ≤ i then (mt.set 0 (mt.getD 623 0), 1) else (mt, i)

/-- First mixing loop of `init_by_array` (multiplier 1664525, key added). -/
def mtMixA (key : List Nat) (st : List Nat × Nat × Nat) (_ : Nat) : List Nat × Nat × Nat :=
  let mt := st.1
  let i := st.2.1
  let j := st.2.2
  let prev := mt.getD (i - 1) 0
  let v := w32 ((mt.getD i 0 ^^^ w32 ((prev ^^^ (prev >>> 30)) * 1664525)) + key.getD j 0 + j)
  let p := mtWrap (mt.set i v) (i + 1)
  (p.1, p.2, if key.length ≤ j + 1 then 0 else j + 1)

/-- Second mixing loop of `init_by_array` (multiplier 1566083941, index
subtracted; the C subtraction wraps modulo `2^32`). -/
def mtMixB (st : List Nat × Nat) (_ : Nat) : List Nat × Nat :=
  let mt := st.1
  let i := st.2
  let prev := mt.getD (i - 1) 0
  let v := w32 ((mt.getD i 0 ^^^ w32 ((prev ^^^ (prev >>> 30)) * 1566083941)) + 4294967296 - i)
  let p := mtWrap (mt.set i v) (i + 1)
  (p.1, p.2)

/-- `init_by_array(key)` as in CPython's `_randommodule.c`. -/
def mtInitByArray (key : List Nat) : List Nat :=
  let k := max 624 key.length
  let a := (List.range k).foldl (mtMixA key) (mtInitGenrand 19650218, 1, 0)
  let b := (List.range 623).foldl mtMixB (a.1, a.2.1)
  b.1.set 0 2147483648

/-- One step of the block regeneration (`mt` twist). -/
def mtTwistStep (mt : List Nat) (kk : Nat) : List Nat :=
  let y := (mt.getD kk 0 &&& 2147483648) ||| (mt.getD ((kk + 1) % 624) 0 &&& 2147483647)
  let v := mt.getD ((kk + 397) % 624) 0 ^^^ (y >>> 1) ^^^ (if y % 2 = 1 then 2567483615 else 0)
  mt.set kk v

/-- Regeneration of all 624 state words. -/
def mtTwist (mt : List Nat) : List Nat := (List.range 624).foldl mtTwistStep mt

/-- The output tempering of `genrand_uint32`. -/
def mtTemper (y : Nat) : Nat :=
  let y1 := y ^^^ (y >>> 11)
  let y2 := y1 ^^^ (w32 (y1 <<< 7) &&& 2636928640)
  let y3 := y2 ^^^ (w32 (y2 <<< 15) &&& 4022730752)
  y3 ^^^ (y3 >>> 18)

/-- Generator state: the 624 words plus the next output index. -/
structure MTState where
  mt : List Nat
  idx : Nat
deriving DecidableEq

/-- `random.Random(seed)` for an integer seed: `init_by_array` on the seed's
words, with the output index set past the end so the first draw twists. -/
def mtFromSeed (s : Nat) : MTState := ⟨mtInitByArray (seedKey s), 624⟩

/-- `genrand_uint32`: one 32-bit draw. -/
def mtNext (st : MTState) : Nat × MTState :=
  let p := if 624 ≤ st.idx then (mtTwist st.mt, 0) else (st.mt, st.idx)
  (mtTemper (p.1.getD p.2 0), ⟨p.1, p.2 + 1⟩)

/-- `random()`: a 53-bit dyadic rational in `[0,1)` from two draws
(`genrand_res53`); exact in binary64, hence exactly a rational. -/
def mtRandom (st : MTState) : ℚ × MTState :=
  let a := mtNext st
  let b := mtNext a.2
  ((((a.1 >>> 5) * 67108864 + (b.1 >>> 6) : Nat) : ℚ) / 9007199254740992, b.2)

/-- `random.uniform(-1.0, 1.0)` = `-1 + (1 - (-1)) * random()`; each binary64
operation involved is exact, so the rational value is the float's value. -/
def mtUniformPm1 (st : MTState) : ℚ × MTState :=
  let r := mtRandom st
  (-1 + 2 * r.1, r.2)

/-- The list comprehension `[rng.uniform(-1.0, 1.0) for _ in range(dim)]`. -/
def mtUniformList : Nat → MTState → List ℚ
  | 0, _ => []
  | n + 1, st =>
    let r := mtUniformPm1 st
    r.1 :: mtUniformList n r.2

/-! ### `EmbeddingService` (`backend/embedding_service.py`) -/

/-- `EmbeddingService._mock_embedding`: seed a `random.Random` with the big-
endian integer of the first 8 bytes of the SHA-256 of the UTF-8 text and draw
`mock_dim` uniform floats in `[-1, 1]`. -/
def mock_embedding (dim : Nat) (text : String) : List ℚ :=
  let digest := sha256 (utf8Encode text)
  let seed := (digest.take 8).foldl (fun a b => a * 256 + b) 0
  mtUniformList dim (mtFromSeed seed)

/-- The service's configuration state set in `__init__`: the
`USE_MOCK_EMBEDDINGS` flag and the `MOCK_EMBEDDING_DIM` dimension. -/
structure EmbeddingService where
  use_mock : Bool
  mock_dim : Nat
deriving DecidableEq

/-- The `task_type` argument passed to `genai.embed_content`. -/
inductive TaskType where
  | retrievalDocument
  | retrievalQuery
deriving DecidableEq

/-- Outcome of one remote `genai.embed_content` call: a vector, a
`google_exceptions.GoogleAPIError`, or any other exception. -/
inductive BackendOutcome where
  | ok (v : List ℚ)
  | googleAPIError (msg : String)
  | unexpectedError (msg : String)
deriving DecidableEq

/-- Whether the call raised (either `except` arm of the source). -/
def BackendOutcome.isErr : BackendOutcome → Bool
  | .ok _ => false
  | .googleAPIError _ => true
  | .unexpectedError _ => true

/-- The remote embedding backend as a function of intent and text. -/
abbrev Backend := TaskType → String → BackendOutcome

/-- `EmbeddingService.embed_text`: mock mode short-circuits to the mock
embedding; otherwise the remote call with `task_type="retrieval_document"`
is made, and both `except` arms fall back to the mock embedding. -/
def embed_text (svc : EmbeddingService) (backend : Backend) (text : String) : List ℚ :=
  if svc.use_mock then mock_embedding svc.mock_dim text
  else
    match backend .retrievalDocument text with
    | .ok v => v
    | .googleAPIError _ => mock_embedding svc.mock_dim text
    | .unexpectedError _ => mock_embedding svc.mock_dim text

/-- `EmbeddingService.embed_query`: as `embed_text` but with
`task_type="retrieval_query"`. -/
def embed_query (svc : EmbeddingService) (backend : Backend) (query : String) : List ℚ :=
  if svc.use_mock then mock_embedding svc.mock_dim query
  else
    match backend .retrievalQuery query with
    | .ok v => v
    | .googleAPIError _ => mock_embedding svc.mock_dim query
    | .unexpectedError _ => mock_embedding svc.mock_dim query

/-- `EmbeddingService.embed_documents`: the per-text loop
`[self.embed_text(text) for text in texts]`. -/
def embed_documents (svc : EmbeddingService) (backend : Backend) (texts : List String) :
    List (List ℚ) :=
  texts.map (fun text => embed_text svc backend text)

/-! ### Claims about the embedding service -/

/-- C1: for every text, whenever the remote backend call raises (a
`GoogleAPIError` such as quota exhaustion, or any unexpected exception), the
corresponding embedding function does not propagate the error and returns
exactly the deterministic fallback vector `mock_embedding` — the same function
used by the explicit mock mode — so embedding never hard-fails. -/
theorem embed_falls_back_on_backend_error (svc : EmbeddingService) (backend : Backend)
    (t : String) :
    ((backend .retrievalDocument t).isErr = true →
      embed_text svc backend t = mock_embedding svc.mock_dim t) ∧
    ((backend .retrievalQuery t).isErr = true →
      embed_query svc backend t = mock_embedding svc.mock_dim t) := by
  constructor
  · intro h
    cases hm : svc.use_mock with
    | true => simp [embed_text, hm]
    | false =>
      cases hb : backend .retrievalDocument t with
      | ok v => rw [hb] at h; simp [BackendOutcome.isErr] at h
      | googleAPIError m => simp [embed_text, hm, hb]
      | unexpectedError m => simp [embed_text, hm, hb]
  · intro h
    cases hm : svc.use_mock with
    | true => simp [embed_query, hm]
    | false =>
      cases hb : backend .retrievalQuery t with
      | ok v => rw [hb] at h; simp [BackendOutcome.isErr] at h
      | googleAPIError m => simp [embed_query, hm, hb]
      | unexpectedError m => simp [embed_query, hm, hb]

/-- Witness for C1: a backend that always raises a quota error makes both
embedding paths return the fallback vector for a concrete text. -/
theorem embed_falls_back_on_backend_error_witness :
    embed_text ⟨false, 16⟩ (fun _ _ => .googleAPIError "429 quota exceeded") "hello"
      = mock_embedding 16 "hello" ∧
    embed_query ⟨false, 16⟩ (fun _ _ => .googleAPIError "429 quota exceeded") "hello"
      = mock_embedding 16 "hello" :=
  ⟨(embed_falls_back_on_backend_error ⟨false, 16⟩
      (fun _ _ => .googleAPIError "429 quota exceeded") "hello").1 rfl,
   (embed_falls_back_on_backend_error ⟨false, 16⟩
      (fun _ _ => .googleAPIError "429 quota exceeded") "hello").2 rfl⟩

/-- C8: `embed_documents` is pointwise equivalent to repeated `embed_text`
calls — it preserves length and order, and the i-th output is the embedding
of the i-th input. -/
theorem embed_documents_pointwise (svc : EmbeddingService) (backend : Backend)
    (texts : List String) :
    (embed_documents svc backend texts).length = texts.length ∧
    ∀ i : Nat, (embed_documents svc backend texts).get? i
      = (texts.get? i).map (fun t => embed_text svc backend t) := by
  constructor
  · simp [embed_documents]
  · intro i
    simp only [embed_documents, List.get?_eq_getElem?, List.getElem?_map]

/-- C10: the document/query intent distinction disappears in fallback.  In
mock mode `embed_query` coincides with `embed_text` (both produce the mock
embedding), and the same coincidence holds per call whenever the backend
errors on both the document-intent and the query-intent path. -/
theorem query_doc_distinction_collapses (svc : EmbeddingService) (backend : Backend)
    (t : String) :
    (svc.use_mock = true →
      embed_query svc backend t = embed_text svc backend t ∧
      embed_query svc backend t = mock_embedding svc.mock_dim t) ∧
    ((backend .retrievalDocument t).isErr = true →
      (backend .retrievalQuery t).isErr = true →
      embed_query svc backend t = embed_text svc backend t ∧
      embed_query svc backend t = mock_embedding svc.mock_dim t) := by
  constructor
  · intro hm
    simp [embed_query, embed_text, hm]
  · intro hdoc hq
    have h1 := (embed_falls_back_on_backend_error svc backend t).1 hdoc
    have h2 := (embed_falls_back_on_backend_error svc backend t).2 hq
    exact ⟨h2.trans h1.symm, h2⟩

/-- Witness for C10: in mock mode a concrete query embeds identically to the
same text embedded with document intent. -/
theorem query_doc_distinction_collapses_witness :
    embed_query ⟨true, 8⟩ (fun _ _ => .ok [0]) "photosynthesis"
      = embed_text ⟨true, 8⟩ (fun _ _ => .ok [0]) "photosynthesis" ∧
    embed_query ⟨true, 8⟩ (fun _ _ => .ok [0]) "photosynthesis"
      = mock_embedding 8 "photosynthesis" :=
  (query_doc_distinction_collapses ⟨true, 8⟩ (fun _ _ => .ok [0]) "photosynthesis").1 rfl

/-! ### Vector store and retrieval (`backend/rag_pipeline.py`,
`backend/retrieval_service.py`)

The vector store is langchain's FAISS wrapper: a flat L2 index over the chunk
vectors plus a docstore holding the chunk `Document`s, looked up by the
vector's ordinal.  Distances are squared L2, computed here over the exact
rational representation of the stored floats. -/

/-- A langchain `Document`: page content plus the `source`/`page` metadata the
retrieval service reads (`metadata.get(...)`, absent entries modelled by
`none`). -/
structure LDoc where
  page_content : String
  metaSource : Option String
  metaPage : Option Int
deriving DecidableEq

/-- The value of `result["page"]`: the page number from the metadata, or the
string `"unknown"` when the metadata lacks one. -/
inductive PageField where
  | num (n : Int)
  | unknownPage
deriving DecidableEq

/-- Rendering of the page field inside an f-string (`str` of the value). -/
def PageField.toStr : PageField → String
  | .num n => toString n
  | .unknownPage => "unknown"

/-- One element of the list `retrieve_documents` returns. -/
structure RetrievalResult where
  content : String
  source : String
  page : PageField
  rank : Nat
deriving DecidableEq

/-- The in-memory FAISS store: the index's vectors (by ordinal) and the
docstore giving the `Document` for each ordinal (the composition of
`index_to_docstore_id` with the docstore dictionary). -/
structure FAISSStore where
  index : List (List ℚ)
  docstore : List LDoc
deriving DecidableEq

/-- Squared L2 distance between two vectors. -/
def l2sq (u v : List ℚ) : ℚ := ((u.zip v).map (fun p => (p.1 - p.2) ^ 2)).sum

/-- Insertion of an indexed vector into a list kept sorted by distance to
`q`, nearest first. -/
def insertByDist (q : List ℚ) (x : Nat × List ℚ) :
    List (Nat × List ℚ) → List (Nat × List ℚ)
  | [] => [x]
  | y :: ys => if l2sq q x.2 ≤ l2sq q y.2 then x :: y :: ys else y :: insertByDist q x ys

/-- All indexed vectors sorted by distance to `q`, nearest first. -/
def sortByDist (q : List ℚ) : List (Nat × List ℚ) → List (Nat × List ℚ)
  | [] => []
  | x :: xs => insertByDist q x (sortByDist q xs)

/-- Modelled from the spec: FAISS `IndexFlatL2.search` — exact
nearest-neighbor search under the L2 metric returning the `k` nearest
vectors' ordinals nearest-first, and all of them when fewer than `k` exist
(the library pads with `-1` ordinals, which the wrapper's
`similarity_search` loop skips, so the net result is the `min(n,k)`
nearest). -/
def indexSearch (index : List (List ℚ)) (q : List ℚ) (k : Nat) : List (Nat × List ℚ) :=
  (sortByDist q index.enum).take k

/-- Failure of the docstore lookup inside `similarity_search` (a missing
ordinal raises in langchain's FAISS wrapper). -/
inductive SearchError where
  | missingDoc (i : Nat)
deriving DecidableEq

/-- The wrapper's result loop: look each returned ordinal up in the
docstore, accumulating the documents in order, raising on the first missing
ordinal. -/
def lookupDocs (docstore : List LDoc) : List (Nat × List ℚ) → Except SearchError (List LDoc)
  | [] => Except.ok []
  | p :: ps =>
    match docstore.get? p.1 with
    | none => Except.error (SearchError.missingDoc p.1)
    | some d =>
      match lookupDocs docstore ps with
      | Except.error e => Except.error e
      | Except.ok ds => Except.ok (d :: ds)

/-- langchain `FAISS.similarity_search`: embed the query with the store's
embedding function (query intent), search the index, and look each returned
ordinal up in the docstore. -/
def similarity_search (store : FAISSStore) (svc : EmbeddingService) (backend : Backend)
    (query : String) (k : Nat) : Except SearchError (List LDoc) :=
  let qv := embed_query svc backend query
  lookupDocs store.docstore (indexSearch store.index qv k)

/-- The errors `RetrievalService.retrieve_documents` can raise: the
`ValueError("No vector store loaded. Please process a PDF first.")` guard, or
a failure inside the similarity search. -/
inductive RetrievalError where
  | noStoreLoaded
  | searchFailure (e : SearchError)
deriving DecidableEq

/-- `RetrievalService.retrieve_documents`: fail when no vector store is
loaded, otherwise run the similarity search and annotate the results with
source, page and consecutive 1-based ranks (`i + 1` for the i-th document). -/
def retrieve_documents (svc : EmbeddingService) (backend : Backend)
    (vectorstore : Option FAISSStore) (query : String) (k : Nat) :
    Except RetrievalError (List RetrievalResult) :=
  match vectorstore with
  | none => Except.error RetrievalError.noStoreLoaded
  | some store =>
    match similarity_search store svc backend query k with
    | Except.error e => Except.error (RetrievalError.searchFailure e)
    | Except.ok docs =>
      Except.ok (docs.enum.map (fun p =>
        { content := p.2.page_content
          source := p.2.metaSource.getD "unknown"
          page := match p.2.metaPage with
                  | some n => PageField.num n
                  | none => PageField.unknownPage
          rank := p.1 + 1 }))

/-- `"\n".join(parts)` over the accumulated part strings. -/
def joinParts : List String → String
  | [] => ""
  | p :: ps => ps.foldl (fun acc q => acc ++ "\n" ++ q) p

/-- The per-document format string
`f"[Kaynak {doc['rank']} - Sayfa {doc['page']}]\n{doc['content']}\n"`. -/
def formatSourceDoc (d : RetrievalResult) : String :=
  "[Kaynak " ++ toString d.rank ++ " - Sayfa " ++ d.page.toStr ++ "]\n" ++ d.content ++ "\n"

/-- `RetrievalService.build_context_from_docs`: append each formatted
document to `context_parts` in a loop, then join with newlines. -/
def build_context_from_docs (documents : List RetrievalResult) : String :=
  joinParts (documents.foldl (fun parts d => parts ++ [formatSourceDoc d]) [])

/-! ### Vector store persistence (`RAGPipeline.load_vectorstore`) -/

/-- A persisted collection: the serialized index vectors (`index.faiss`) and
the pickled chunk documents (`index.pkl`), stored in parallel. -/
structure SavedCollection where
  indexVectors : List (List ℚ)
  docs : List LDoc
deriving DecidableEq

/-- `FAISS.load_local`: deserialize both parts and rebuild the in-memory
store as-is.  The library performs no cross-validation of the vector count
against the docstore count. -/
def faiss_load_local (saved : SavedCollection) : FAISSStore :=
  { index := saved.indexVectors, docstore := saved.docs }

/-- The error `RAGPipeline.load_vectorstore` raises when the named directory
does not exist (`FileNotFoundError(f"Vector store not found: ...")`). -/
inductive LoadError where
  | fileNotFound (name : String)
deriving DecidableEq

/-- The pipeline's mutable state: the `self.vectorstore` field (the process's
single current store, `None` before any ingest or load). -/
structure PipelineState where
  vectorstore : Option FAISSStore
deriving DecidableEq

/-- `RAGPipeline.load_vectorstore`: raise `FileNotFoundError` when nothing is
saved under the name — before touching `self.vectorstore` — otherwise load
the store from disk and install it as the current store.  The on-disk
contents are a function from names to saved collections. -/
def load_vectorstore (disk : String → Option SavedCollection) (st : PipelineState)
    (name : String) : Except LoadError FAISSStore × PipelineState :=
  match disk name with
  | none => (Except.error (LoadError.fileNotFound name), st)
  | some saved =>
    let vs := faiss_load_local saved
    (Except.ok vs, { vectorstore := some vs })

/-! ### Claims about retrieval and persistence -/

/-- C3: calling `retrieve_documents` when no store has been built or loaded
in the process (`vectorstore is None`) fails with the no-store-loaded error
and returns no results. -/
theorem retrieve_before_any_store_fails (svc : EmbeddingService) (backend : Backend)
    (query : String) (k : Nat) :
    retrieve_documents svc backend none query k = Except.error RetrievalError.noStoreLoaded ∧
    ∀ rs : List RetrievalResult, retrieve_documents svc backend none query k ≠ Except.ok rs :=
  ⟨rfl, fun _ h => by simp [retrieve_documents] at h⟩

/-- C4: `load_vectorstore` on a name with no saved collection on disk fails
with the not-found error, and the currently loaded store is left exactly as
it was before the call. -/
theorem load_missing_fails_state_unchanged (disk : String → Option SavedCollection)
    (st : PipelineState) (name : String) (h : disk name = none) :
    (load_vectorstore disk st name).1 = Except.error (LoadError.fileNotFound name) ∧
    (load_vectorstore disk st name).2 = st := by
  simp [load_vectorstore, h]

/-- Witness for C4: loading a nonexistent name over an empty disk leaves a
previously loaded store untouched. -/
theorem load_missing_fails_state_unchanged_witness :
    ((fun _ : String => (none : Option SavedCollection)) "nonexistent"
      = (none : Option SavedCollection)) ∧
    (load_vectorstore (fun _ => none) ⟨some ⟨[[1]], [⟨"kept", none, none⟩]⟩⟩ "nonexistent").1
      = Except.error (LoadError.fileNotFound "nonexistent") ∧
    (load_vectorstore (fun _ => none) ⟨some ⟨[[1]], [⟨"kept", none, none⟩]⟩⟩ "nonexistent").2
      = ⟨some ⟨[[1]], [⟨"kept", none, none⟩]⟩⟩ :=
  ⟨rfl, load_missing_fails_state_unchanged (fun _ => none)
    ⟨some ⟨[[1]], [⟨"kept", none, none⟩]⟩⟩ "nonexistent" rfl⟩

/-- A persisted collection with two vectors but only one chunk document. -/
def mismatchedSaved : SavedCollection :=
  ⟨[[1, 0], [0, 1]], [⟨"lone chunk", some "doc.pdf", some 1⟩]⟩

/-- C6 counterexample: loading a persisted collection whose vector count (2)
and chunk-metadata count (1) disagree does not fail — `load_vectorstore`
returns the partial store successfully, so no `CorruptCollection`-style
rejection exists in the code. -/
theorem load_mismatch_counterexample :
    mismatchedSaved.indexVectors.length = 2 ∧
    mismatchedSaved.docs.length = 1 ∧
    (load_vectorstore (fun _ => some mismatchedSaved) ⟨none⟩ "corrupt").1
      = Except.ok (faiss_load_local mismatchedSaved) :=
  ⟨rfl, rfl, rfl⟩

/-- C6 (amended): loading an existing persisted collection always succeeds
and installs the deserialized store as-is — no vector/metadata count
validation is performed, regardless of any mismatch. -/
theorem load_performs_no_count_validation (disk : String → Option SavedCollection)
    (st : PipelineState) (name : String) (saved : SavedCollection)
    (h : disk name = some saved) :
    (load_vectorstore disk st name).1 = Except.ok (faiss_load_local saved) ∧
    (load_vectorstore disk st name).2.vectorstore = some (faiss_load_local saved) := by
  simp [load_vectorstore, h]

/-- Witness for the amended C6: the mismatched collection loads successfully. -/
theorem load_performs_no_count_validation_witness :
    ((fun _ : String => some mismatchedSaved) "corrupt" = some mismatchedSaved) ∧
    (load_vectorstore (fun _ => some mismatchedSaved) ⟨none⟩ "corrupt").1
      = Except.ok (faiss_load_local mismatchedSaved) ∧
    (load_vectorstore (fun _ => some mismatchedSaved) ⟨none⟩ "corrupt").2.vectorstore
      = some (faiss_load_local mismatchedSaved) :=
  ⟨rfl, load_performs_no_count_validation (fun _ => some mismatchedSaved) ⟨none⟩
    "corrupt" mismatchedSaved rfl⟩

/-- Appending one element to the accumulated parts of the context loop. -/
theorem foldl_parts_eq_map {α β : Type} (f : α → β) :
    ∀ (l : List α) (acc : List β),
      l.foldl (fun parts d => parts ++ [f d]) acc = acc ++ l.map f
  | [], acc => by simp
  | x :: xs, acc => by
    simp [foldl_parts_eq_map f xs (acc ++ [f x])]

/-- `joinParts` of a list extended on the right: the new part is appended
after a separating newline (none when the list was empty). -/
theorem joinParts_append_singleton (xs : List String) (x : String) :
    joinParts (xs ++ [x]) = joinParts xs ++ (if xs = [] then "" else "\n") ++ x := by
  cases xs with
  | nil => simp [joinParts]
  | cons p ps => simp [joinParts, List.foldl_append]

/-- C9: `build_context_from_docs` is a deterministic, order-preserving
concatenation — its accumulation loop equals mapping the per-document format
(rank and page prefix, then the text) over the results in order and joining
with newlines, and extending the result list on the right only appends that
document's formatted block. -/
theorem build_context_ordered_concat (documents : List RetrievalResult) :
    build_context_from_docs documents = joinParts (documents.map formatSourceDoc) ∧
    ∀ d : RetrievalResult,
      build_context_from_docs (documents ++ [d]) =
        build_context_from_docs documents ++
          (if documents = [] then "" else "\n") ++ formatSourceDoc d := by
  have hfold : ∀ ds : List RetrievalResult,
      build_context_from_docs ds = joinParts (ds.map formatSourceDoc) := by
    intro ds
    unfold build_context_from_docs
    rw [foldl_parts_eq_map formatSourceDoc ds []]
    rfl
  refine ⟨hfold documents, fun d => ?_⟩
  rw [hfold (documents ++ [d]), hfold documents, List.map_append, List.map_singleton,
    joinParts_append_singleton]
  by_cases h : documents = []
  · simp [h]
  · rw [if_neg h, if_neg (by simpa using h)]

/-- Inserting into a distance-sorted list permutes the element in. -/
theorem insertByDist_perm (q : List ℚ) (x : Nat × List ℚ) :
    ∀ l : List (Nat × List ℚ), List.Perm (insertByDist q x l) (x :: l)
  | [] => List.Perm.refl _
  | y :: ys => by
    rw [insertByDist]
    by_cases hc : l2sq q x.2 ≤ l2sq q y.2
    · rw [if_pos hc]
    · rw [if_neg hc]
      exact ((insertByDist_perm q x ys).cons y).trans (List.Perm.swap x y ys)

/-- Sorting by distance permutes its input. -/
theorem sortByDist_perm (q : List ℚ) :
    ∀ l : List (Nat × List ℚ), List.Perm (sortByDist q l) l
  | [] => List.Perm.refl _
  | x :: xs =>
    (insertByDist_perm q x (sortByDist q xs)).trans ((sortByDist_perm q xs).cons x)

/-- Inserting into a distance-sorted list keeps it distance-sorted. -/
theorem insertByDist_pairwise (q : List ℚ) (x : Nat × List ℚ) :
    ∀ l : List (Nat × List ℚ),
      List.Pairwise (fun a b => l2sq q a.2 ≤ l2sq q b.2) l →
      List.Pairwise (fun a b => l2sq q a.2 ≤ l2sq q b.2) (insertByDist q x l)
  | [], _ => by simp [insertByDist]
  | y :: ys, h => by
    rw [insertByDist]
    obtain ⟨hy, hys⟩ := List.pairwise_cons.mp h
    by_cases hc : l2sq q x.2 ≤ l2sq q y.2
    · rw [if_pos hc]
      refine List.pairwise_cons.mpr ⟨?_, h⟩
      intro b hb
      rcases List.mem_cons.mp hb with rfl | hb2
      · exact hc
      · exact hc.trans (hy b hb2)
    · rw [if_neg hc]
      refine List.pairwise_cons.mpr ⟨?_, insertByDist_pairwise q x ys hys⟩
      intro b hb
      rcases List.mem_cons.mp ((insertByDist_perm q x ys).mem_iff.mp hb) with rfl | hb2
      · exact le_of_not_le hc
      · exact hy b hb2

/-- The distance sort is sorted: distances are non-decreasing along it. -/
theorem sortByDist_pairwise (q : List ℚ) :
    ∀ l : List (Nat × List ℚ),
      List.Pairwise (fun a b => l2sq q a.2 ≤ l2sq q b.2) (sortByDist q l)
  | [] => List.Pairwise.nil
  | x :: xs => insertByDist_pairwise q x (sortByDist q xs) (sortByDist_pairwise q xs)

/-- Every numbered element of `enumFrom n` has its ordinal below `n` plus
the list length. -/
theorem mem_enumFrom_fst_lt {α : Type} :
    ∀ (l : List α) (n : Nat) (p : Nat × α), p ∈ l.enumFrom n → p.1 < n + l.length
  | [], _, _, h => by simp at h
  | a :: as, n, p, h => by
    rcases List.mem_cons.mp (by simpa using h) with rfl | h2
    · simp
    · have := mem_enumFrom_fst_lt as (n + 1) p h2
      simp only [List.length_cons]
      omega

/-- The successor of the ordinals of `enumFrom n` is a contiguous range. -/
theorem enumFrom_map_fst_succ {α : Type} :
    ∀ (l : List α) (n : Nat),
      (l.enumFrom n).map (fun p => p.1 + 1) = List.range' (n + 1) l.length
  | [], _ => rfl
  | a :: as, n => by
    simp only [List.enumFrom_cons, List.map_cons, List.length_cons, List.range'_succ]
    exact congrArg _ (enumFrom_map_fst_succ as (n + 1))

/-- When every requested ordinal is inside the docstore, the lookup loop
succeeds and returns one document per ordinal, in order. -/
theorem lookupDocs_ok (docstore : List LDoc) :
    ∀ l : List (Nat × List ℚ), (∀ p ∈ l, p.1 < docstore.length) →
      ∃ ds : List LDoc, lookupDocs docstore l = Except.ok ds ∧ ds.length = l.length
  | [], _ => ⟨[], rfl, rfl⟩
  | p :: ps, h => by
    have hp : p.1 < docstore.length := h p (List.mem_cons_self p ps)
    obtain ⟨ds, hds, hlen⟩ :=
      lookupDocs_ok docstore ps (fun a ha => h a (List.mem_cons_of_mem _ ha))
    refine ⟨docstore.get ⟨p.1, hp⟩ :: ds, ?_, by simp [hlen]⟩
    simp [lookupDocs, List.getElem?_eq_getElem hp, hds, List.get_eq_getElem]

/-- C5: with a loaded well-formed store holding `n` vectors and any `k ≥ 1`,
`retrieve_documents` never throws: it returns exactly `min n k` results whose
ranks are the consecutive 1-based sequence, drawn from the nearest-first
(L2-sorted) rearrangement of the indexed vectors. -/
theorem retrieve_returns_min_results (svc : EmbeddingService) (backend : Backend)
    (store : FAISSStore) (query : String) (k : Nat)
    (hk : 1 ≤ k) (hwf : store.docstore.length = store.index.length) :
    (∃ rs : List RetrievalResult,
      retrieve_documents svc backend (some store) query k = Except.ok rs ∧
      rs.length = min store.index.length k ∧
      rs.map RetrievalResult.rank = List.range' 1 (min store.index.length k)) ∧
    List.Pairwise
      (fun a b => l2sq (embed_query svc backend query) a.2
        ≤ l2sq (embed_query svc backend query) b.2)
      (indexSearch store.index (embed_query svc backend query) k) ∧
    List.Perm (sortByDist (embed_query svc backend query) store.index.enum)
      store.index.enum := by
  have hperm := sortByDist_perm (embed_query svc backend query) store.index.enum
  have hlen_sorted :
      (sortByDist (embed_query svc backend query) store.index.enum).length
        = store.index.length := by
    rw [hperm.length_eq, List.enum_length]
  have hfst : ∀ p ∈ indexSearch store.index (embed_query svc backend query) k,
      p.1 < store.docstore.length := by
    intro p hp
    have hmem := List.mem_of_mem_take hp
    have hmem2 := hperm.mem_iff.mp hmem
    have := mem_enumFrom_fst_lt store.index 0 p (by simpa [List.enum] using hmem2)
    omega
  obtain ⟨ds, hds, hdslen⟩ := lookupDocs_ok store.docstore _ hfst
  have hlen2 : ds.length = min store.index.length k := by
    rw [hdslen]
    unfold indexSearch
    rw [List.length_take, hlen_sorted, Nat.min_comm]
  have hr : retrieve_documents svc backend (some store) query k
      = Except.ok (ds.enum.map (fun p =>
          ({ content := p.2.page_content
             source := p.2.metaSource.getD "unknown"
             page := match p.2.metaPage with
                     | some n => PageField.num n
                     | none => PageField.unknownPage
             rank := p.1 + 1 } : RetrievalResult))) := by
    simp only [retrieve_documents, similarity_search]
    rw [hds]
  refine ⟨⟨_, hr, ?_, ?_⟩, ?_, hperm⟩
  · rw [List.length_map, List.enum_length, hlen2]
  · rw [List.map_map]
    have : (RetrievalResult.rank ∘ fun p : Nat × LDoc =>
        ({ content := p.2.page_content
           source := p.2.metaSource.getD "unknown"
           page := match p.2.metaPage with
                   | some n => PageField.num n
                   | none => PageField.unknownPage
           rank := p.1 + 1 } : RetrievalResult)) = fun p => p.1 + 1 := rfl
    rw [this, List.enum, enumFrom_map_fst_succ, hlen2]
  · exact List.Pairwise.sublist (List.take_sublist k _)
      (sortByDist_pairwise (embed_query svc backend query) store.index.enum)

/-- The concrete two-vector store used to witness C5. -/
def c5store : FAISSStore :=
  ⟨[[0], [3]], [⟨"chunk a", some "doc.pdf", some 1⟩, ⟨"chunk b", some "doc.pdf", some 2⟩]⟩

/-- Witness for C5: a store with 2 vectors queried with `k = 5` returns
exactly 2 results ranked 1, 2. -/
theorem retrieve_returns_min_results_witness :
    1 ≤ 5 ∧ c5store.docstore.length = c5store.index.length ∧
    (∃ rs : List RetrievalResult,
      retrieve_documents ⟨true, 2⟩ (fun _ _ => BackendOutcome.ok []) (some c5store) "q" 5
        = Except.ok rs ∧
      rs.length = min c5store.index.length 5 ∧
      rs.map RetrievalResult.rank = List.range' 1 (min c5store.index.length 5)) :=
  ⟨by decide, rfl,
   (retrieve_returns_min_results ⟨true, 2⟩ (fun _ _ => BackendOutcome.ok []) c5store "q" 5
      (by decide) rfl).1⟩

/-! ### The chunker (`RAGPipeline.chunk_documents`)

The splitter is langchain's `RecursiveCharacterTextSplitter` as constructed in
`RAGPipeline.__init__`: `chunk_size = CHUNK_SIZE`, `chunk_overlap =
CHUNK_OVERLAP`, `length_function = len`, `separators = ["\n\n", "\n", " ",
""]`, and the splitter defaults `keep_separator = True`,
`strip_whitespace = True`, `is_separator_regex = False`.  Python strings are
modelled as character lists (`len`, slicing and concatenation translate to
list operations).  The recursion over ever-finer separators is driven by a
fuel argument so that every function is structurally recursive; the fuel is
instantiated with the separator-list length, which the recursion (always
moving to a strictly shorter suffix) never exhausts. -/

/-- A Python string as its character list. -/
abbrev PyStr := List Char

/-- The whitespace predicate of `str.strip()` (over the characters the
modelled texts contain). -/
def pyIsSpace (c : Char) : Bool := c.isWhitespace

/-- `str.strip()`: drop whitespace from both ends. -/
def pyStrip (s : PyStr) : PyStr :=
  ((s.dropWhile pyIsSpace).reverse.dropWhile pyIsSpace).reverse

/-- `re.split` with a captured escaped literal separator, keeping only the
text pieces between the non-overlapping leftmost matches: fuelled recursion
(the fuel, instantiated at `length + 1`, dominates the text length). -/
def splitOnSepF (sep : PyStr) : Nat → PyStr → List PyStr
  | 0, t => [t]
  | fuel + 1, t =>
    if sep ≠ [] ∧ sep.isPrefixOf t = true then
      [] :: splitOnSepF sep fuel (t.drop sep.length)
    else
      match t with
      | [] => [[]]
      | c :: rest =>
        match splitOnSepF sep fuel rest with
        | [] => [[c]]
        | p :: ps => (c :: p) :: ps

/-- The pieces of `text` between occurrences of the literal `sep`. -/
def splitOnSep (sep t : PyStr) : List PyStr := splitOnSepF sep (t.length + 1) t

/-- `re.search(re.escape(sep), text)`: does `sep` occur as a contiguous
substring? -/
def containsSub (sep : PyStr) : PyStr → Bool
  | [] => sep.isPrefixOf []
  | c :: rest => sep.isPrefixOf (c :: rest) || containsSub sep rest

/-- The separator-selection loop of `_split_text`: the first separator that
is empty or occurs in the text is chosen together with the remaining
separators; otherwise the prefetched `separators[-1]` default stands (with no
remaining separators). -/
def chooseSep (dflt : PyStr) : List PyStr → PyStr → PyStr × List PyStr
  | [], _ => (dflt, [])
  | s :: rest, text =>
    if s = [] then ([], [])
    else if containsSub s text then (s, rest)
    else chooseSep dflt rest text

/-- `_split_text_with_regex`: split on the separator — keeping each
separator glued to the piece after it when `keepSep` — or into single
characters for the empty separator, and drop empty pieces. -/
def splitTextWithRegex (sep text : PyStr) (keepSep : Bool) : List PyStr :=
  let splits :=
    if sep ≠ [] then
      if keepSep then
        match splitOnSep sep text with
        | [] => []
        | p :: ps => p :: ps.map (fun q => sep ++ q)
      else splitOnSep sep text
    else text.map (fun c => [c])
  splits.filter (fun s => !s.isEmpty)

/-- `separator.join(docs)`. -/
def strJoin (sep : PyStr) : List PyStr → PyStr
  | [] => []
  | p :: ps => p ++ (ps.map (fun q => sep ++ q)).flatten

/-- `_join_docs`: join, strip whitespace (the splitter's default), and
return nothing when the result is empty. -/
def joinDocs (docsL : List PyStr) (sep : PyStr) : Option PyStr :=
  let text := pyStrip (strJoin sep docsL)
  if text = [] then none else some text

/-- The overlap-popping `while` loop of `_merge_splits`, dropping the front
of `current_doc` while the running total exceeds the overlap or would
overflow the chunk size.  A true condition with an empty `current_doc` would
fault in the source; it is unreachable there (the total is then 0), and the
model returns unchanged. -/
def popWhile (CS CO sepLen : Nat) (lenD : Int) : List PyStr → Int → List PyStr × Int
  | [], total => ([], total)
  | d0 :: rest, total =>
    if (CO : Int) < total ∨
       ((CS : Int) < total + lenD + (if (d0 :: rest : List PyStr) ≠ [] then (sepLen : Int) else 0)
         ∧ 0 < total) then
      popWhile CS CO sepLen lenD rest
        (total - ((d0.length : Int) + (if rest ≠ [] then (sepLen : Int) else 0)))
    else (d0 :: rest, total)

/-- One iteration of the `_merge_splits` loop over a split `d`: flush the
accumulated document (and pop the overlap window) when adding `d` would
exceed the chunk size, then append `d` and update the running total. -/
def mergeStep (CS CO : Nat) (sep : PyStr) (st : List PyStr × List PyStr × Int) (d : PyStr) :
    List PyStr × List PyStr × Int :=
  let sepLen := sep.length
  let lenD : Int := d.length
  let flushed :=
    if (CS : Int) < st.2.2 + lenD + (if st.2.1 ≠ [] then (sepLen : Int) else 0) then
      if st.2.1 ≠ [] then
        let docs2 := match joinDocs st.2.1 sep with
          | some t => st.1 ++ [t]
          | none => st.1
        let pq := popWhile CS CO sepLen lenD st.2.1 st.2.2
        (docs2, pq.1, pq.2)
      else st
    else st
  let cur2 := flushed.2.1 ++ [d]
  (flushed.1, cur2, flushed.2.2 + lenD + (if 1 < cur2.length then (sepLen : Int) else 0))

/-- `_merge_splits`: fold the loop over the splits, then join and emit the
final accumulated document. -/
def mergeSplits (CS CO : Nat) (splits : List PyStr) (sep : PyStr) : List PyStr :=
  let st := splits.foldl (mergeStep CS CO sep) ([], [], 0)
  match joinDocs st.2.1 sep with
  | some t => st.1 ++ [t]
  | none => st.1

/-- The split-processing loop of `_split_text`: splits shorter than the
chunk size accumulate into `good`; an oversized split first flushes the
accumulated merge, then is recursively re-split when finer separators remain
and is emitted whole otherwise. -/
def processWith (CS CO : Nat) (msep : PyStr) (recSplit : PyStr → List PyStr)
    (newSeps : List PyStr) : List PyStr → List PyStr → List PyStr
  | [], good => if good ≠ [] then mergeSplits CS CO good msep else []
  | s :: rest, good =>
    if s.length < CS then processWith CS CO msep recSplit newSeps rest (good ++ [s])
    else
      let flushed := if good ≠ [] then mergeSplits CS CO good msep else []
      let mid := if newSeps = [] then [s] else recSplit s
      flushed ++ mid ++ processWith CS CO msep recSplit newSeps rest []

/-- `RecursiveCharacterTextSplitter._split_text`, fuelled on the separator
recursion.  The fuel-0 and empty-separator-list branches mirror states the
source never reaches (the recursion always moves to a strictly shorter,
nonempty separator suffix; `separators[-1]` on an empty list would raise). -/
def splitTextF (CS CO : Nat) (keepSep : Bool) : Nat → List PyStr → PyStr → List PyStr
  | 0, _, text => [text]
  | fuel + 1, seps, text =>
    match seps with
    | [] => [text]
    | s0 :: srest =>
      let sp := chooseSep ((s0 :: srest).getLastD []) (s0 :: srest) text
      let splits := splitTextWithRegex sp.1 text keepSep
      let msep := if keepSep then [] else sp.1
      processWith CS CO msep (splitTextF CS CO keepSep fuel sp.2) sp.2 splits []

/-- The separator list `["\n\n", "\n", " ", ""]` passed in
`RAGPipeline.__init__`. -/
def ragSeparators : List PyStr := [['\n', '\n'], ['\n'], [' '], []]

/-- `split_text` of the pipeline's configured splitter
(`keep_separator = True`). -/
def split_text (CS CO : Nat) (text : PyStr) : List PyStr :=
  splitTextF CS CO true ragSeparators.length ragSeparators text

/-- A langchain `Document` entering the splitter: one page-tagged text
block. -/
structure PDoc where
  page_content : PyStr
  metaSource : Option String
  metaPage : Option Int
deriving DecidableEq

/-- `RAGPipeline.chunk_documents` =
`text_splitter.split_documents(documents)`: split each block's text and wrap
each chunk in a document carrying the block's metadata unchanged. -/
def chunk_documents (CS CO : Nat) (documents : List PDoc) : List PDoc :=
  (documents.map (fun d =>
    (split_text CS CO d.page_content).map
      (fun c => { d with page_content := c }))).flatten

/-- The exact total `_merge_splits` tracks when the merge separator is
empty: the sum of the accumulated splits' lengths. -/
def sumL (l : List PyStr) : Int := (l.map (fun s => (s.length : Int))).sum

/-- `sumL` of nil. -/
theorem sumL_nil : sumL [] = 0 := rfl

/-- `sumL` of a cons. -/
theorem sumL_cons (d : PyStr) (l : List PyStr) : sumL (d :: l) = d.length + sumL l := by
  simp [sumL]

/-- `sumL` of an append. -/
theorem sumL_append (l1 l2 : List PyStr) : sumL (l1 ++ l2) = sumL l1 + sumL l2 := by
  simp [sumL]

/-- Split lengths are nonnegative, hence so is their sum. -/
theorem sumL_nonneg : ∀ l : List PyStr, 0 ≤ sumL l
  | [] => le_refl 0
  | d :: l => by
    rw [sumL_cons]
    have := sumL_nonneg l
    positivity

/-- The tracked total is the flattened length. -/
theorem sumL_eq_flatten_length : ∀ l : List PyStr, sumL l = ((l.flatten).length : Int)
  | [] => rfl
  | p :: ps => by
    rw [sumL_cons, sumL_eq_flatten_length ps]
    simp

/-- Joining on the empty separator is concatenation. -/
theorem strJoin_nil : ∀ l : List PyStr, strJoin [] l = l.flatten
  | [] => rfl
  | p :: ps => by simp [strJoin]

/-- Stripping never lengthens a string. -/
theorem pyStrip_length_le (s : PyStr) : (pyStrip s).length ≤ s.length := by
  unfold pyStrip
  calc (((s.dropWhile pyIsSpace).reverse.dropWhile pyIsSpace).reverse).length
      = ((s.dropWhile pyIsSpace).reverse.dropWhile pyIsSpace).length := by
        rw [List.length_reverse]
    _ ≤ (s.dropWhile pyIsSpace).reverse.length := (List.dropWhile_sublist pyIsSpace).length_le
    _ = (s.dropWhile pyIsSpace).length := by rw [List.length_reverse]
    _ ≤ s.length := (List.dropWhile_sublist pyIsSpace).length_le

/-- What a successful `_join_docs` returns. -/
theorem joinDocs_some {l : List PyStr} {sep t : PyStr} (h : joinDocs l sep = some t) :
    t = pyStrip (strJoin sep l) := by
  simp only [joinDocs] at h
  by_cases hP : pyStrip (strJoin sep l) = []
  · rw [if_pos hP] at h
    exact absurd h (by simp)
  · rw [if_neg hP] at h
    exact (Option.some_injective _ h).symm

/-- The overlap-popping loop with an empty separator: it preserves the
total-equals-sum invariant and stops only when adding the pending split fits
the chunk size or nothing is left. -/
theorem popWhile_spec (CS CO : Nat) (lenD : Int) :
    ∀ (cur : List PyStr) (total : Int), total = sumL cur →
      (popWhile CS CO 0 lenD cur total).2 = sumL (popWhile CS CO 0 lenD cur total).1 ∧
      ((popWhile CS CO 0 lenD cur total).2 + lenD ≤ (CS : Int) ∨
        (popWhile CS CO 0 lenD cur total).2 = 0)
  | [], total, h => by
    refine ⟨by simpa [popWhile] using h, Or.inr ?_⟩
    simpa [popWhile, sumL_nil] using h
  | d0 :: rest, total, h => by
    rw [popWhile]
    by_cases hc : (CO : Int) < total ∨
        ((CS : Int) < total + lenD +
          (if (d0 :: rest : List PyStr) ≠ [] then ((0 : Nat) : Int) else 0) ∧ 0 < total)
    · rw [if_pos hc]
      apply popWhile_spec CS CO lenD rest
      rw [h, sumL_cons]
      simp
    · rw [if_neg hc]
      push_neg at hc
      refine ⟨h, ?_⟩
      rcases le_or_lt (total + lenD +
          (if (d0 :: rest : List PyStr) ≠ [] then ((0 : Nat) : Int) else 0)) (CS : Int)
        with h1 | h1
      · left
        simpa using h1
      · right
        have h2 := hc.2 h1
        have h0 : 0 ≤ total := h ▸ sumL_nonneg (d0 :: rest)
        omega

/-- One `_merge_splits` iteration with the empty separator preserves the
invariant: every emitted document fits the chunk size, and the running total
is the sum of the current accumulator and at most the chunk size. -/
theorem mergeStep_inv (CS CO : Nat) (st : List PyStr × List PyStr × Int) (d : PyStr)
    (hd : d.length < CS)
    (hdocs : ∀ x ∈ st.1, x.length ≤ CS) (htot : st.2.2 = sumL st.2.1)
    (hle : st.2.2 ≤ (CS : Int)) :
    (∀ x ∈ (mergeStep CS CO [] st d).1, x.length ≤ CS) ∧
    (mergeStep CS CO [] st d).2.2 = sumL (mergeStep CS CO [] st d).2.1 ∧
    (mergeStep CS CO [] st d).2.2 ≤ (CS : Int) := by
  obtain ⟨docs, cur, total⟩ := st
  simp only at hdocs htot hle
  have hdInt : (d.length : Int) < (CS : Int) := by exact_mod_cast hd
  simp only [mergeStep, List.length_nil]
  by_cases hg : (CS : Int) < total + (d.length : Int) +
      (if cur ≠ [] then ((0 : Nat) : Int) else 0)
  · rw [if_pos hg]
    by_cases hcur : cur ≠ []
    · rw [if_pos hcur]
      obtain ⟨hpop1, hpop2⟩ := popWhile_spec CS CO (d.length : Int) cur total htot
      have hjoin : ∀ x ∈ (match joinDocs cur [] with
          | some t => docs ++ [t]
          | none => docs), x.length ≤ CS := by
        cases hj : joinDocs cur [] with
        | none => simpa using hdocs
        | some t =>
          intro x hx
          have hx2 : x ∈ docs ∨ x = t := by simpa using hx
          rcases hx2 with hx1 | rfl
          · exact hdocs x hx1
          · rw [joinDocs_some hj, strJoin_nil]
            have h1 : ((cur.flatten).length : Int) ≤ (CS : Int) := by
              rw [← sumL_eq_flatten_length, ← htot]
              exact hle
            have h2 : (cur.flatten).length ≤ CS := by exact_mod_cast h1
            exact le_trans (pyStrip_length_le _) h2
      refine ⟨hjoin, ?_, ?_⟩
      · simp [hpop1, sumL_append, sumL_cons, sumL_nil]
      · simp only
        rcases hpop2 with hA | hB
        · simpa using hA
        · rw [hB]
          simpa using hdInt.le
    · rw [if_neg hcur]
      push_neg at hcur
      subst hcur
      rw [sumL_nil] at htot
      subst htot
      refine ⟨hdocs, ?_, ?_⟩
      · simp [sumL_cons, sumL_nil]
      · simpa using hdInt.le
  · rw [if_neg hg]
    have hg2 : total + (d.length : Int) ≤ (CS : Int) := by
      rcases eq_or_ne cur [] with hc | hc
      · simp [hc] at hg
        omega
      · simp [hc] at hg
        omega
    refine ⟨hdocs, ?_, ?_⟩
    · rw [htot, sumL_append, sumL_cons, sumL_nil]
      simp
    · simpa using hg2

/-- The `_merge_splits` loop preserves the invariant over the whole fold. -/
theorem foldl_mergeStep_inv (CS CO : Nat) :
    ∀ (splits : List PyStr) (st : List PyStr × List PyStr × Int),
      (∀ s ∈ splits, s.length < CS) →
      (∀ x ∈ st.1, x.length ≤ CS) → st.2.2 = sumL st.2.1 → st.2.2 ≤ (CS : Int) →
      (∀ x ∈ (splits.foldl (mergeStep CS CO []) st).1, x.length ≤ CS) ∧
      (splits.foldl (mergeStep CS CO []) st).2.2
        = sumL (splits.foldl (mergeStep CS CO []) st).2.1 ∧
      (splits.foldl (mergeStep CS CO []) st).2.2 ≤ (CS : Int)
  | [], _, _, h1, h2, h3 => ⟨h1, h2, h3⟩
  | s :: rest, st, hs, h1, h2, h3 => by
    obtain ⟨g1, g2, g3⟩ := mergeStep_inv CS CO st s (hs s (List.mem_cons_self s rest)) h1 h2 h3
    exact foldl_mergeStep_inv CS CO rest _ (fun a ha => hs a (List.mem_cons_of_mem _ ha)) g1 g2 g3

/-- `_merge_splits` with the empty separator: when each split is shorter
than the chunk size, every merged document fits the chunk size. -/
theorem mergeSplits_bound (CS CO : Nat) (splits : List PyStr)
    (hs : ∀ s ∈ splits, s.length < CS) :
    ∀ d ∈ mergeSplits CS CO splits [], d.length ≤ CS := by
  intro d hd
  obtain ⟨g1, g2, g3⟩ := foldl_mergeStep_inv CS CO splits ([], [], 0) hs
    (by simp) rfl (by positivity)
  rw [mergeSplits] at hd
  revert hd
  cases hj : joinDocs (splits.foldl (mergeStep CS CO []) ([], [], 0)).2.1 [] with
  | none =>
    intro hd
    exact g1 d hd
  | some t =>
    intro hd
    have hd2 : d ∈ (splits.foldl (mergeStep CS CO []) ([], [], 0)).1 ∨ d = t := by
      simpa using hd
    rcases hd2 with hd1 | rfl
    · exact g1 d hd1
    · rw [joinDocs_some hj, strJoin_nil]
      have h1 : (((splits.foldl (mergeStep CS CO []) ([], [], 0)).2.1.flatten).length : Int)
          ≤ (CS : Int) := by
        rw [← sumL_eq_flatten_length, ← g2]
        exact g3
      have h2 : ((splits.foldl (mergeStep CS CO []) ([], [], 0)).2.1.flatten).length ≤ CS := by
        exact_mod_cast h1
      exact le_trans (pyStrip_length_le _) h2

/-- The split-processing loop: when accumulated splits are short and every
oversized split re-splits (with finer separators available) into bounded
chunks, every produced chunk fits the chunk size. -/
theorem processWith_bound (CS CO : Nat) (recSplit : PyStr → List PyStr)
    (newSeps : List PyStr) :
    ∀ (splits good : List PyStr),
      (∀ s ∈ splits, ¬ s.length < CS →
        newSeps ≠ [] ∧ ∀ c ∈ recSplit s, c.length ≤ CS) →
      (∀ g ∈ good, g.length < CS) →
      ∀ c ∈ processWith CS CO [] recSplit newSeps splits good, c.length ≤ CS
  | [], good, _, hgood => by
    intro c hc
    rw [processWith] at hc
    by_cases hg : good ≠ []
    · rw [if_pos hg] at hc
      exact mergeSplits_bound CS CO good hgood c hc
    · rw [if_neg hg] at hc
      simp at hc
  | s :: rest, good, hrec, hgood => by
    intro c hc
    rw [processWith] at hc
    by_cases hshort : s.length < CS
    · rw [if_pos hshort] at hc
      refine processWith_bound CS CO recSplit newSeps rest (good ++ [s])
        (fun a ha hna => hrec a (List.mem_cons_of_mem _ ha) hna) ?_ c hc
      intro g hg
      rcases List.mem_append.mp hg with hg1 | hg2
      · exact hgood g hg1
      · have : g = s := by simpa using hg2
        exact this ▸ hshort
    · rw [if_neg hshort] at hc
      obtain ⟨hns, hbound⟩ := hrec s (List.mem_cons_self s rest) hshort
      simp only [if_neg hns] at hc
      rcases List.mem_append.mp hc with hc1 | hc2
      · rcases List.mem_append.mp hc1 with hc3 | hc4
        · by_cases hg : good ≠ []
          · rw [if_pos hg] at hc3
            exact mergeSplits_bound CS CO good hgood c hc3
          · rw [if_neg hg] at hc3
            simp at hc3
        · exact hbound c hc4
      · exact processWith_bound CS CO recSplit newSeps rest []
          (fun a ha hna => hrec a (List.mem_cons_of_mem _ ha) hna) (by simp) c hc2

/-- The separator-selection result when the empty separator is among the
candidates: either the empty separator is chosen (no finer separators), or a
nonempty one is chosen and the remaining suffix is strictly shorter and still
contains the empty separator. -/
theorem chooseSep_cases (dflt t : PyStr) :
    ∀ seps : List PyStr, [] ∈ seps →
      ((chooseSep dflt seps t).1 = [] ∧ (chooseSep dflt seps t).2 = []) ∨
      ((chooseSep dflt seps t).1 ≠ [] ∧ [] ∈ (chooseSep dflt seps t).2 ∧
        (chooseSep dflt seps t).2.length < seps.length)
  | [], h => absurd h (List.not_mem_nil [])
  | s :: rest, h => by
    rw [chooseSep]
    by_cases hs : s = []
    · rw [if_pos hs]
      exact Or.inl ⟨rfl, rfl⟩
    · rw [if_neg hs]
      have hrest : [] ∈ rest := by
        rcases List.mem_cons.mp h with h1 | h2
        · exact absurd h1.symm hs
        · exact h2
      by_cases hocc : containsSub s t = true
      · rw [if_pos hocc]
        exact Or.inr ⟨hs, hrest, by simp⟩
      · rw [if_neg hocc]
        rcases chooseSep_cases dflt t rest hrest with ⟨h1, h2⟩ | ⟨h1, h2, h3⟩
        · exact Or.inl ⟨h1, h2⟩
        · exact Or.inr ⟨h1, h2, by simpa using Nat.lt_succ_of_lt h3⟩

/-- Splitting on the empty separator yields single characters. -/
theorem splitTextWithRegex_empty_sep (t : PyStr) :
    ∀ s ∈ splitTextWithRegex [] t true, s.length = 1 := by
  intro s hs
  simp only [splitTextWithRegex, ne_eq, not_true_eq_false, if_false, reduceIte] at hs
  obtain ⟨hs2, -⟩ := List.mem_filter.mp hs
  obtain ⟨c, -, rfl⟩ := List.mem_map.mp hs2
  rfl

/-- `_split_text` bound: with the empty separator among the candidates (so
the character-level fallback exists), enough fuel, and a chunk size of at
least 2, every produced chunk's length is at most the chunk size. -/
theorem splitTextF_bound (CS CO : Nat) (hCS : 2 ≤ CS) :
    ∀ (fuel : Nat) (seps : List PyStr), [] ∈ seps → seps.length ≤ fuel →
      ∀ (t : PyStr), ∀ c ∈ splitTextF CS CO true fuel seps t, c.length ≤ CS := by
  intro fuel
  induction fuel with
  | zero =>
    intro seps hmem hlen t c hc
    have hnil : seps = [] := List.length_eq_zero.mp (Nat.le_zero.mp hlen)
    rw [hnil] at hmem
    exact absurd hmem (List.not_mem_nil _)
  | succ fuel ih =>
    intro seps hmem hlen t c hc
    cases seps with
    | nil => exact absurd hmem (List.not_mem_nil _)
    | cons s0 srest =>
      simp only [splitTextF, if_true] at hc
      rcases chooseSep_cases ((s0 :: srest).getLastD []) t (s0 :: srest) hmem
        with ⟨h1, h2⟩ | ⟨h1, h2, h3⟩
      · rw [h1, h2] at hc
        refine processWith_bound CS CO _ [] _ [] ?_ (by simp) c hc
        intro s hs hns
        exfalso
        have hlen1 := splitTextWithRegex_empty_sep t s hs
        omega
      · refine processWith_bound CS CO _ _ _ [] ?_ (by simp) c hc
        intro s hs hns
        refine ⟨List.ne_nil_of_mem h2, ?_⟩
        intro c2 hc2
        have hlen2 : (chooseSep ((s0 :: srest).getLastD []) (s0 :: srest) t).2.length
            ≤ fuel := by
          have := List.length_cons s0 srest
          omega
        exact ih _ h2 hlen2 s c2 hc2

/-- The split pieces are never the empty list of pieces. -/
theorem splitOnSepF_ne_nil (sep : PyStr) : ∀ (fuel : Nat) (t : PyStr),
    splitOnSepF sep fuel t ≠ []
  | 0, t => by simp [splitOnSepF]
  | fuel + 1, [] => by
    rw [splitOnSepF.eq_2]
    by_cases hp : sep ≠ [] ∧ sep.isPrefixOf ([] : PyStr) = true
    · rw [if_pos hp]
      simp
    · rw [if_neg hp]
      simp
  | fuel + 1, c :: rest => by
    rw [splitOnSepF.eq_3]
    by_cases hp : sep ≠ [] ∧ sep.isPrefixOf (c :: rest) = true
    · rw [if_pos hp]
      simp
    · rw [if_neg hp]
      cases hr : splitOnSepF sep fuel rest <;> simp

/-- A matched prefix followed by the remainder reassembles the text. -/
theorem isPrefixOf_append_drop {sep t : PyStr} (h : sep.isPrefixOf t = true) :
    sep ++ t.drop sep.length = t := by
  obtain ⟨u, rfl⟩ := List.isPrefixOf_iff_prefix.mp h
  rw [List.drop_left]

/-- Joining after an empty leading piece prepends one separator. -/
theorem strJoin_cons_cons (sep q : PyStr) (qs : List PyStr) :
    strJoin sep ([] :: q :: qs) = sep ++ strJoin sep (q :: qs) := by
  simp [strJoin]

/-- Splitting on a separator and joining with it reproduces the text. -/
theorem strJoin_splitOnSepF (sep : PyStr) :
    ∀ (fuel : Nat) (t : PyStr), t.length < fuel →
      strJoin sep (splitOnSepF sep fuel t) = t
  | 0, _, h => absurd h (by omega)
  | fuel + 1, [], _ => by
    rw [splitOnSepF.eq_2]
    rw [if_neg (fun hp => by
      rcases hp with ⟨h1, h2⟩
      cases sep with
      | nil => exact h1 rfl
      | cons c cs => simp [List.isPrefixOf] at h2)]
    rfl
  | fuel + 1, c :: rest, h => by
    rw [splitOnSepF.eq_3]
    by_cases hp : sep ≠ [] ∧ sep.isPrefixOf (c :: rest) = true
    · rw [if_pos hp]
      have hsep1 : 1 ≤ sep.length := List.length_pos.mpr hp.1
      have hlt : ((c :: rest).drop sep.length).length < fuel := by
        rw [List.length_drop]
        simp only [List.length_cons] at h ⊢
        omega
      cases hq : splitOnSepF sep fuel ((c :: rest).drop sep.length) with
      | nil => exact absurd hq (splitOnSepF_ne_nil sep fuel _)
      | cons q qs =>
        have hrec := strJoin_splitOnSepF sep fuel ((c :: rest).drop sep.length) hlt
        rw [hq] at hrec
        rw [strJoin_cons_cons, hrec, isPrefixOf_append_drop hp.2]
    · rw [if_neg hp]
      have hlt : rest.length < fuel := by
        simp only [List.length_cons] at h
        omega
      cases hr : splitOnSepF sep fuel rest with
      | nil => exact absurd hr (splitOnSepF_ne_nil sep fuel rest)
      | cons p ps =>
        have hrec := strJoin_splitOnSepF sep fuel rest hlt
        rw [hr] at hrec
        simp only [strJoin] at hrec ⊢
        rw [List.cons_append, hrec]

/-- Dropping the empty pieces does not change the concatenation. -/
theorem flatten_filter_ne_nil : ∀ l : List PyStr,
    (l.filter (fun s => !s.isEmpty)).flatten = l.flatten
  | [] => rfl
  | s :: l => by
    by_cases hs : s.isEmpty
    · have hnil : s = [] := by simpa using hs
      simp [List.filter_cons, hs, hnil, flatten_filter_ne_nil l]
    · simp [List.filter_cons, hs, flatten_filter_ne_nil l]

/-- Exploding a text into characters and concatenating restores it. -/
theorem flatten_map_singleton : ∀ t : PyStr, (t.map (fun c => [c])).flatten = t
  | [] => rfl
  | c :: rest => by simp [flatten_map_singleton rest]

/-- The splitter's pieces concatenate back to the text (`keep_separator`
mode): nothing is lost or duplicated by `_split_text_with_regex`. -/
theorem flatten_splitTextWithRegex (sep t : PyStr) :
    (splitTextWithRegex sep t true).flatten = t := by
  simp only [splitTextWithRegex]
  by_cases hsep : sep ≠ []
  · rw [if_pos hsep]
    have hjoin := strJoin_splitOnSepF sep (t.length + 1) t (by omega)
    rw [show splitOnSepF sep (t.length + 1) t = splitOnSep sep t from rfl] at hjoin
    cases hq : splitOnSep sep t with
    | nil => exact absurd hq (splitOnSepF_ne_nil sep _ t)
    | cons p ps =>
      rw [hq] at hjoin
      simp only [if_true, flatten_filter_ne_nil]
      rw [← hjoin]
      simp [strJoin]
  · rw [if_neg hsep]
    rw [flatten_filter_ne_nil, flatten_map_singleton]

/-- A piece of a concatenation is no longer than the concatenation. -/
theorem length_le_flatten_of_mem {s : PyStr} {l : List PyStr} (h : s ∈ l) :
    s.length ≤ l.flatten.length := by
  induction l with
  | nil => simp at h
  | cons p ps ih =>
    rcases List.mem_cons.mp h with rfl | h2
    · simp
    · simp only [List.flatten_cons, List.length_append]
      exact le_trans (ih h2) (Nat.le_add_left _ _)

/-- When every split is short, the processing loop reduces to one merge of
all the splits. -/
theorem processWith_all_good (CS CO : Nat) (msep : PyStr) (recSplit : PyStr → List PyStr)
    (newSeps : List PyStr) :
    ∀ (splits good : List PyStr), (∀ s ∈ splits, s.length < CS) →
      processWith CS CO msep recSplit newSeps splits good =
        if good ++ splits ≠ [] then mergeSplits CS CO (good ++ splits) msep else []
  | [], good, _ => by
    rw [processWith]
    simp
  | s :: rest, good, hs => by
    rw [processWith, if_pos (hs s (List.mem_cons_self s rest))]
    rw [processWith_all_good CS CO msep recSplit newSeps rest (good ++ [s])
      (fun a ha => hs a (List.mem_cons_of_mem _ ha))]
    rw [show (good ++ [s]) ++ rest = good ++ s :: rest by simp]

/-- With all splits fitting within the chunk size in total, the merge loop
never flushes: it just accumulates everything. -/
theorem foldl_mergeStep_no_flush (CS CO : Nat) :
    ∀ (rest acc docs : List PyStr), sumL acc + sumL rest ≤ (CS : Int) →
      rest.foldl (mergeStep CS CO []) (docs, acc, sumL acc)
        = (docs, acc ++ rest, sumL (acc ++ rest)) := by
  intro rest
  induction rest with
  | nil =>
    intro acc docs _
    simp
  | cons d rest ih =>
    intro acc docs h
    rw [sumL_cons] at h
    have hr0 := sumL_nonneg rest
    rw [List.foldl_cons]
    have hstep : mergeStep CS CO [] (docs, acc, sumL acc) d
        = (docs, acc ++ [d], sumL (acc ++ [d])) := by
      simp only [mergeStep, List.length_nil]
      rw [if_neg (by simp only [Nat.cast_zero, ite_self]; omega)]
      simp [sumL_append, sumL_cons, sumL_nil]
    rw [hstep]
    have h2 : sumL (acc ++ [d]) + sumL rest ≤ (CS : Int) := by
      rw [sumL_append, sumL_cons, sumL_nil]
      omega
    rw [ih (acc ++ [d]) docs h2]
    simp

/-- `_merge_splits` of short-in-total splits: one joined (stripped)
document, or nothing when it strips to empty. -/
theorem mergeSplits_no_flush (CS CO : Nat) (splits : List PyStr)
    (h : sumL splits ≤ (CS : Int)) :
    mergeSplits CS CO splits [] = (joinDocs splits []).toList := by
  rw [mergeSplits]
  rw [show ((0 : Int)) = sumL [] from rfl]
  rw [foldl_mergeStep_no_flush CS CO splits [] [] (by rw [sumL_nil]; omega)]
  cases hj : joinDocs splits [] <;> simp [hj]

/-- A character failing the predicate survives `dropWhile`. -/
theorem exists_not_mem_dropWhile {p : Char → Bool} :
    ∀ s : PyStr, (∃ c ∈ s, p c = false) → ∃ c ∈ s.dropWhile p, p c = false
  | [], h => by simp at h
  | c0 :: rest, h => by
    rw [List.dropWhile_cons]
    by_cases hc : p c0 = true
    · rw [if_pos hc]
      apply exists_not_mem_dropWhile rest
      obtain ⟨c, hcm, hcp⟩ := h
      rcases List.mem_cons.mp hcm with rfl | h2
      · rw [hc] at hcp
        exact absurd hcp (by simp)
      · exact ⟨c, h2, hcp⟩
    · rw [if_neg hc]
      exact h

/-- A string containing a non-whitespace character does not strip to
empty. -/
theorem pyStrip_ne_nil {s : PyStr} (h : ∃ c ∈ s, pyIsSpace c = false) :
    pyStrip s ≠ [] := by
  unfold pyStrip
  obtain ⟨c, hm, hp⟩ := exists_not_mem_dropWhile s h
  have h2 : ∃ c ∈ (s.dropWhile pyIsSpace).reverse, pyIsSpace c = false :=
    ⟨c, List.mem_reverse.mpr hm, hp⟩
  obtain ⟨c2, hm2, hp2⟩ := exists_not_mem_dropWhile _ h2
  intro hnil
  rw [List.reverse_eq_nil_iff] at hnil
  rw [hnil] at hm2
  exact (List.not_mem_nil c2) hm2

/-- A text shorter than the chunk size containing a non-whitespace character
splits into exactly one chunk: its stripped self, with no overlap applied. -/
theorem split_text_short (CS CO : Nat) (t : PyStr)
    (hlen : t.length < CS) (hws : ∃ c ∈ t, pyIsSpace c = false) :
    split_text CS CO t = [pyStrip t] := by
  have htne : t ≠ [] := by
    obtain ⟨c, hm, -⟩ := hws
    exact List.ne_nil_of_mem hm
  rw [show split_text CS CO t
      = splitTextF CS CO true (3 + 1) [['\n', '\n'], ['\n'], [' '], []] t from rfl]
  simp only [splitTextF, if_true]
  have hflat := flatten_splitTextWithRegex
    (chooseSep (([['\n', '\n'], ['\n'], [' '], []] : List PyStr).getLastD [])
      [['\n', '\n'], ['\n'], [' '], []] t).1 t
  have hshort : ∀ s ∈ splitTextWithRegex
      (chooseSep (([['\n', '\n'], ['\n'], [' '], []] : List PyStr).getLastD [])
        [['\n', '\n'], ['\n'], [' '], []] t).1 t true, s.length < CS := by
    intro s hs
    exact lt_of_le_of_lt (hflat ▸ length_le_flatten_of_mem hs) hlen
  rw [processWith_all_good _ _ _ _ _ _ [] hshort]
  have hne : splitTextWithRegex
      (chooseSep (([['\n', '\n'], ['\n'], [' '], []] : List PyStr).getLastD [])
        [['\n', '\n'], ['\n'], [' '], []] t).1 t true ≠ [] := by
    intro hnil
    rw [hnil] at hflat
    exact htne hflat.symm
  rw [if_pos (by simpa using hne)]
  have hsum : sumL (splitTextWithRegex
      (chooseSep (([['\n', '\n'], ['\n'], [' '], []] : List PyStr).getLastD [])
        [['\n', '\n'], ['\n'], [' '], []] t).1 t true) ≤ (CS : Int) := by
    rw [sumL_eq_flatten_length, hflat]
    exact_mod_cast hlen.le
  rw [List.nil_append, mergeSplits_no_flush CS CO _ hsum]
  simp only [joinDocs, strJoin_nil, hflat]
  rw [if_neg (pyStrip_ne_nil hws)]
  rfl

/-! ### Claims about the chunker -/

/-- C7 counterexample: a block whose text is the single space character —
shorter than the configured `chunkSize` of 1000 — yields zero chunks, not
one: the splitter strips whitespace and drops chunks that strip to empty. -/
theorem chunker_short_block_counterexample :
    ([' '] : PyStr).length < 1000 ∧
    chunk_documents 1000 200 [⟨[' '], some "doc.pdf", some 1⟩] = [] := by
  constructor
  · decide
  · rfl

/-- C7 (amended): every chunk the Chunker produces has text length at most
`chunkSize` (for the configured separators, which end with the
character-level separator, even indivisible units never exceed it, given
`chunkSize ≥ 2`), and a block whose text is shorter than `chunkSize` and
contains at least one non-whitespace character yields exactly one chunk —
its stripped text, with no overlap applied and metadata inherited. -/
theorem chunk_size_bound_and_short_block (CS CO : Nat) (hCS : 2 ≤ CS) :
    (∀ (documents : List PDoc), ∀ d ∈ chunk_documents CS CO documents,
      d.page_content.length ≤ CS) ∧
    (∀ block : PDoc, block.page_content.length < CS →
      (∃ c ∈ block.page_content, pyIsSpace c = false) →
      chunk_documents CS CO [block]
        = [{ block with page_content := pyStrip block.page_content }]) := by
  constructor
  · intro documents d hd
    rw [chunk_documents] at hd
    obtain ⟨l, hl, hdl⟩ := List.mem_flatten.mp hd
    obtain ⟨b, hb, rfl⟩ := List.mem_map.mp hl
    obtain ⟨c, hc, rfl⟩ := List.mem_map.mp hdl
    exact splitTextF_bound CS CO hCS ragSeparators.length ragSeparators
      (by decide) (le_refl _) b.page_content c hc
  · intro block hlen hws
    simp [chunk_documents, split_text_short CS CO block.page_content hlen hws]

/-- Witness for the amended C7: a three-character block (one leading space)
chunks to exactly its stripped text with the metadata kept. -/
theorem chunk_size_bound_and_short_block_witness :
    2 ≤ 1000 ∧
    chunk_documents 1000 200 [⟨[' ', 'a', 'b'], some "doc.pdf", some 1⟩]
      = [⟨['a', 'b'], some "doc.pdf", some 1⟩] :=
  ⟨by decide,
   ((chunk_size_bound_and_short_block 1000 200 (by decide)).2
      ⟨[' ', 'a', 'b'], some "doc.pdf", some 1⟩ (by decide)
      ⟨'a', by decide, by decide⟩).trans (by decide)⟩
